import Mathlib

/-!
# Verification of the fulfillment-optimization core (src/optimize_logistics.py)

Shallow embedding of the assignment-optimization engine:

* `WORKERS` — the static worker-capacity registry (lines 14-36 of
  `optimize_logistics.py`).
* `optimize_schedule_build` — the model-building phase of `optimize_schedule`
  (lines 54-119): decision variables `Assign[oid][worker]`, the cost-minimizing
  objective, the single-ownership equality constraints and the per-worker
  capacity constraints.  The Python build phase performs no validation of the
  order data; the one exception it can raise is PuLP's overlapping
  constraint-name check (`LpProblem.noOverlap`), which raises `PulpError`
  exactly when two constraints receive the same name — `optimize_schedule_run`
  models the build with that failure path, `optimize_schedule_build` the model
  as assembled when the build completes.
* `save_results` — the result extractor (lines 131-167).  The Python loop
  raises an uncaught `KeyError` when no variable of an order exceeds the 0.5
  threshold (`WORKERS[None]`); failure is embedded as `none`.

Numeric values are embedded as rationals: every constant appearing in the
source (`25`, `16.0`, `9999`, `0.5`, ...) is an exactly representable decimal.
-/

/-- One row of the clean order catalog: `order_id`, `num_items`
(`clean_orders` view; `total_weight_kg` is never read by the optimizer and is
omitted). -/
structure Order where
  order_id : Nat
  num_items : ℚ
deriving DecidableEq, Repr

/-- One entry of the worker registry: key plus
`{"speed": ..., "wage": ..., "max_hours": ...}`. -/
structure Worker where
  name : String
  speed : ℚ
  wage : ℚ
  max_hours : ℚ
deriving DecidableEq, Repr

/-- The `WORKERS` configuration dictionary, in its Python insertion order. -/
def WORKERS : List Worker :=
  [ { name := "Junior", speed := 25, wage := 16, max_hours := 9999 }
  , { name := "Senior", speed := 65, wage := 28, max_hours := 16 }
  , { name := "Robot", speed := 140, wage := 5, max_hours := 8 } ]

/-- `worker_names = list(WORKERS.keys())` (line 62). -/
def worker_names : List String := WORKERS.map Worker.name

/-- Total item count of a catalog (`df['num_items'].sum()`). -/
def totalItems (orders : List Order) : ℚ :=
  (orders.map Order.num_items).sum

/-- A linear term `coeff * Assign[oid][wname]` of the PuLP model. -/
structure Term where
  coeff : ℚ
  oid : Nat
  wname : String
deriving DecidableEq, Repr

/-- Value of a linear expression (a `pulp.lpSum` of terms) under a variable
valuation `x`.  `x oid wname` is the value of variable `Assign[oid][wname]`. -/
def evalTerms (x : Nat → String → ℚ) (ts : List Term) : ℚ :=
  (ts.map (fun t => t.coeff * x t.oid t.wname)).sum

/-- Comparison sense of a PuLP constraint (`==` or `<=`). -/
inductive CRel where
  | eq
  | le
deriving DecidableEq, Repr

/-- Evaluated comparison of a constraint. -/
def CRel.holds : CRel → ℚ → ℚ → Prop
  | .eq, a, b => a = b
  | .le, a, b => a ≤ b

instance (r : CRel) (a b : ℚ) : Decidable (r.holds a b) :=
  match r with
  | .eq => inferInstanceAs (Decidable (a = b))
  | .le => inferInstanceAs (Decidable (a ≤ b))

/-- A named linear constraint of the PuLP model. -/
structure Constr where
  cname : String
  rel : CRel
  terms : List Term
  rhs : ℚ

/-- A valuation satisfies a constraint. -/
def Constr.sat (c : Constr) (x : Nat → String → ℚ) : Prop :=
  c.rel.holds (evalTerms x c.terms) c.rhs

instance (c : Constr) (x : Nat → String → ℚ) : Decidable (c.sat x) :=
  inferInstanceAs (Decidable (c.rel.holds (evalTerms x c.terms) c.rhs))

/-- The objective terms contributed by one order (inner loop of lines 75-83):
`cost_to_pack * variable` with `cost_to_pack = (items / speed) * wage`. -/
def objTerms (workers : List Worker) (o : Order) : List Term :=
  workers.map (fun w =>
    { coeff := (o.num_items / w.speed) * w.wage
      oid := o.order_id
      wname := w.name })

/-- The full objective `total_costs = pulp.lpSum(costs)` (lines 68-85). -/
def buildObjective (orders : List Order) (workers : List Worker) : List Term :=
  (orders.map (objTerms workers)).flatten

/-- `Single_Ownership_Order{oid}` (lines 95-99):
`lpSum([choices[oid][w] for w in worker_names]) == 1`. -/
def singleOwnershipConstr (workers : List Worker) (o : Order) : Constr :=
  { cname := "Single_Ownership_Order" ++ toString o.order_id
    rel := .eq
    terms := workers.map (fun w => { coeff := 1, oid := o.order_id, wname := w.name })
    rhs := 1 }

/-- `Max_Capacity_{worker}` (lines 104-117):
`lpSum([(items / speed) * choices[oid][worker]]) <= limit`. -/
def capacityConstr (orders : List Order) (w : Worker) : Constr :=
  { cname := "Max_Capacity_" ++ w.name
    rel := .le
    terms := orders.map (fun o =>
      { coeff := o.num_items / w.speed, oid := o.order_id, wname := w.name })
    rhs := w.max_hours }

/-- The built optimization model: objective sense, objective expression and
constraint list. -/
structure LPModel where
  sense : String
  objective : List Term
  constraints : List Constr

/-- The model assembled by the build phase of `optimize_schedule`
(lines 54-119): a `pulp.LpMinimize` problem with binary variables
`Assign[oid][worker]`, the cost objective, one single-ownership constraint
per order and one capacity constraint per worker.  The source performs no
validation of the catalog or the registry; the one exception the build can
raise, PuLP's overlapping-constraint-name `PulpError`, is modeled by
`optimize_schedule_run` below. -/
def optimize_schedule_build (orders : List Order) (workers : List Worker) : LPModel :=
  { sense := "Minimize"
    objective := buildObjective orders workers
    constraints :=
      orders.map (singleOwnershipConstr workers) ++ workers.map (capacityConstr orders) }

/-- The names under which the constraints are registered in the `LpProblem`
(`Single_Ownership_Order{oid}` and `Max_Capacity_{worker}`). -/
def constraintNames (orders : List Order) (workers : List Worker) : List String :=
  (optimize_schedule_build orders workers).constraints.map Constr.cname

/-- The build phase including its failure path: `pulp.LpProblem` is created
with `noOverlap = 1`, so registering a constraint under an already-used name
raises `PulpError` (uncaught, embedded as `none`).  Since the constraint
names are `Single_Ownership_Order{oid}` per order and `Max_Capacity_{worker}`
per worker, the build completes exactly when no name repeats. -/
def optimize_schedule_run (orders : List Order) (workers : List Worker) :
    Option LPModel :=
  if (constraintNames orders workers).Nodup then
    some (optimize_schedule_build orders workers)
  else none

/-- All decision variables are `cat=pulp.LpBinary` (line 63): a valuation is
integral on the model's variables when each takes value 0 or 1. -/
def binaryOn (orders : List Order) (workers : List Worker)
    (x : Nat → String → ℚ) : Prop :=
  ∀ o ∈ orders, ∀ w ∈ workers, x o.order_id w.name = 0 ∨ x o.order_id w.name = 1

/-- Feasibility for the built model: binary variables satisfying every
constraint. -/
def Feasible (orders : List Order) (workers : List Worker)
    (x : Nat → String → ℚ) : Prop :=
  binaryOn orders workers x ∧
    ∀ c ∈ (optimize_schedule_build orders workers).constraints, c.sat x

/-- Objective value of a valuation for the built model. -/
def objValue (orders : List Order) (workers : List Worker)
    (x : Nat → String → ℚ) : ℚ :=
  evalTerms x (buildObjective orders workers)

/-- A feasible valuation of minimal objective value (what CBC returns on
status `Optimal`). -/
def IsOptimal (orders : List Order) (workers : List Worker)
    (x : Nat → String → ℚ) : Prop :=
  Feasible orders workers x ∧
    ∀ y, Feasible orders workers y → objValue orders workers x ≤ objValue orders workers y

/-- Coefficient of the variable `Assign[oid][wname]` in a linear expression:
the sum of the coefficients of all terms on that variable. -/
def coeffOf (ts : List Term) (oid : Nat) (wn : String) : ℚ :=
  ((ts.filter (fun t => t.oid == oid && t.wname == wn)).map Term.coeff).sum

/-- One output record of `save_results`:
`{"order_id": ..., "assigned_worker": ..., "cost": ...}` (lines 152-156). -/
structure ResultRow where
  order_id : Nat
  assigned_worker : String
  cost : ℚ
deriving DecidableEq, Repr

/-- `WORKERS[name]` dictionary lookup; `none` models a `KeyError`. -/
def lookupWorker (registry : List Worker) (wn : String) : Option Worker :=
  registry.find? (fun w => w.name == wn)

/-- Body of the results loop for one order (lines 139-156): scan the worker
names in registry order, pick the first whose variable value exceeds `0.5`
(breaking out of the loop), then read that worker's `speed` and `wage` from
the registry and record `cost = (items / speed) * wage`.  When no variable
exceeds the threshold, `assigned_worker` stays `None` and the lookup
`WORKERS[None]` raises a `KeyError`, embedded as `none`. -/
def processOrder (registry : List Worker) (workerNames : List String)
    (x : Nat → String → ℚ) (o : Order) : Option ResultRow :=
  match workerNames.find? (fun wn => decide ((1 : ℚ) / 2 < x o.order_id wn)) with
  | none => none
  | some wn =>
    match lookupWorker registry wn with
    | none => none
    | some w =>
      some { order_id := o.order_id
             assigned_worker := wn
             cost := (o.num_items / w.speed) * w.wage }

/-- The result extractor `save_results` (lines 131-167): one record per order,
in catalog order.  An uncaught exception in any iteration aborts the whole
call (`none`); no consistency check of any kind is performed. -/
def save_results (registry : List Worker) (orders : List Order)
    (workerNames : List String) (x : Nat → String → ℚ) : Option (List ResultRow) :=
  match orders with
  | [] => some []
  | o :: rest =>
    match processOrder registry workerNames x o with
    | none => none
    | some r =>
      match save_results registry rest workerNames x with
      | none => none
      | some rows => some (r :: rows)

/-- Post-solve step of the `__main__` block of `optimize_logistics.py`
(lines 169-176): `save_results` runs only when the solver status is
`"Optimal"`. -/
def main_guard_postsolve (registry : List Worker) (orders : List Order)
    (workerNames : List String) (x : Nat → String → ℚ) (status : String) :
    Option (List ResultRow) :=
  if status = "Optimal" then save_results registry orders workerNames x else none

/-- Post-solve step of `src/main.py` (lines 60-65): after the solver call,
`save_results` is invoked unconditionally — the solver status is never
inspected. -/
def main_py_postsolve (registry : List Worker) (orders : List Order)
    (workerNames : List String) (x : Nat → String → ℚ) (_status : String) :
    Option (List ResultRow) :=
  save_results registry orders workerNames x

/-! ## Helper lemmas about linear expressions and list sums -/

theorem evalTerms_append (x : Nat → String → ℚ) (l1 l2 : List Term) :
    evalTerms x (l1 ++ l2) = evalTerms x l1 + evalTerms x l2 := by
  simp [evalTerms]

theorem evalTerms_flatten (x : Nat → String → ℚ) (L : List (List Term)) :
    evalTerms x L.flatten = (L.map (evalTerms x)).sum := by
  induction L with
  | nil => simp [evalTerms]
  | cons ts rest ih => simp [evalTerms_append, ih]

theorem eval_singleOwnership (workers : List Worker) (o : Order)
    (x : Nat → String → ℚ) :
    evalTerms x (singleOwnershipConstr workers o).terms
      = (workers.map (fun w => x o.order_id w.name)).sum := by
  simp [evalTerms, singleOwnershipConstr, List.map_map, Function.comp_def]

theorem eval_capacity (orders : List Order) (w : Worker) (x : Nat → String → ℚ) :
    evalTerms x (capacityConstr orders w).terms
      = (orders.map (fun o => o.num_items / w.speed * x o.order_id w.name)).sum := by
  simp [evalTerms, capacityConstr, List.map_map, Function.comp_def]

theorem eval_objTerms (workers : List Worker) (o : Order) (x : Nat → String → ℚ) :
    evalTerms x (objTerms workers o)
      = (workers.map (fun w =>
          o.num_items / w.speed * w.wage * x o.order_id w.name)).sum := by
  simp [evalTerms, objTerms, List.map_map, Function.comp_def]

theorem evalTerms_objective (orders : List Order) (workers : List Worker)
    (x : Nat → String → ℚ) :
    evalTerms x (buildObjective orders workers)
      = (orders.map (fun o => (workers.map (fun w =>
          o.num_items / w.speed * w.wage * x o.order_id w.name)).sum)).sum := by
  simp [buildObjective, evalTerms_flatten, List.map_map, Function.comp_def,
    eval_objTerms]

theorem sum_map_comm (la : List α) (lb : List β) (f : α → β → ℚ) :
    (la.map (fun a => (lb.map (fun b => f a b)).sum)).sum
      = (lb.map (fun b => (la.map (fun a => f a b)).sum)).sum := by
  induction la with
  | nil => simp
  | cons a rest ih => simp [List.sum_map_add, ih]

theorem coeffOf_append (l1 l2 : List Term) (oid : Nat) (wn : String) :
    coeffOf (l1 ++ l2) oid wn = coeffOf l1 oid wn + coeffOf l2 oid wn := by
  simp [coeffOf, List.filter_append]

theorem coeffOf_cons (t : Term) (ts : List Term) (oid : Nat) (wn : String) :
    coeffOf (t :: ts) oid wn
      = (if t.oid = oid ∧ t.wname = wn then t.coeff else 0) + coeffOf ts oid wn := by
  by_cases h1 : t.oid = oid <;> by_cases h2 : t.wname = wn <;>
    simp [coeffOf, List.filter_cons, h1, h2]

theorem coeffOf_eq_zero (ts : List Term) (oid : Nat) (wn : String)
    (h : ∀ t ∈ ts, t.oid ≠ oid ∨ t.wname ≠ wn) : coeffOf ts oid wn = 0 := by
  induction ts with
  | nil => simp [coeffOf]
  | cons t rest ih =>
    rw [coeffOf_cons]
    have ht := h t (List.mem_cons_self t rest)
    have : ¬(t.oid = oid ∧ t.wname = wn) := by tauto
    simp [this, ih (fun u hu => h u (List.mem_cons_of_mem t hu))]

theorem coeffOf_objTerms_self (workers : List Worker) (o : Order) (w : Worker)
    (hwd : (workers.map Worker.name).Nodup) (hw : w ∈ workers) :
    coeffOf (objTerms workers o) o.order_id w.name
      = o.num_items / w.speed * w.wage := by
  induction workers with
  | nil => cases hw
  | cons a rest ih =>
    rw [List.map_cons, List.nodup_cons] at hwd
    rcases List.mem_cons.mp hw with h | h
    · subst h
      rw [objTerms, List.map_cons, coeffOf_cons]
      have hz : coeffOf (objTerms rest o) o.order_id w.name = 0 := by
        apply coeffOf_eq_zero
        intro t ht
        rcases List.mem_map.mp ht with ⟨u, hu, rfl⟩
        exact Or.inr (fun hcon => hwd.1 (hcon ▸ List.mem_map_of_mem Worker.name hu))
      simp [objTerms] at hz ⊢
      simp [hz]
    · have hne : a.name ≠ w.name := by
        intro hcon
        exact hwd.1 (hcon ▸ List.mem_map_of_mem Worker.name h)
      rw [objTerms, List.map_cons, coeffOf_cons]
      have : ¬((a.name : String) = w.name) := hne
      simp only [objTerms] at ih ⊢
      simp [this, ih hwd.2 h]

theorem coeffOf_objTerms_other (workers : List Worker) (o : Order) (oid : Nat)
    (wn : String) (h : o.order_id ≠ oid) :
    coeffOf (objTerms workers o) oid wn = 0 := by
  apply coeffOf_eq_zero
  intro t ht
  rcases List.mem_map.mp ht with ⟨u, hu, rfl⟩
  exact Or.inl h

theorem coeffOf_buildObjective (orders : List Order) (workers : List Worker)
    (hod : (orders.map Order.order_id).Nodup)
    (hwd : (workers.map Worker.name).Nodup)
    (o : Order) (ho : o ∈ orders) (w : Worker) (hw : w ∈ workers) :
    coeffOf (buildObjective orders workers) o.order_id w.name
      = o.num_items / w.speed * w.wage := by
  induction orders with
  | nil => cases ho
  | cons a rest ih =>
    rw [List.map_cons, List.nodup_cons] at hod
    rw [buildObjective, List.map_cons, List.flatten_cons, coeffOf_append]
    rcases List.mem_cons.mp ho with h | h
    · subst h
      have hz : coeffOf (rest.map (objTerms workers)).flatten o.order_id w.name = 0 := by
        apply coeffOf_eq_zero
        intro t ht
        rcases List.mem_flatten.mp ht with ⟨ts, hts, htmem⟩
        rcases List.mem_map.mp hts with ⟨u, hu, rfl⟩
        rcases List.mem_map.mp htmem with ⟨v, _, rfl⟩
        exact Or.inl (fun hcon =>
          hod.1 (hcon ▸ List.mem_map_of_mem Order.order_id hu))
      rw [hz, coeffOf_objTerms_self workers o w hwd hw, add_zero]
    · have hz : coeffOf (objTerms workers a) o.order_id w.name = 0 := by
        apply coeffOf_objTerms_other
        intro hcon
        exact hod.1 (hcon ▸ List.mem_map_of_mem Order.order_id h)
      rw [hz, zero_add]
      have := ih hod.2 h
      rw [buildObjective] at this
      exact this

/-! ## C1 — objective coefficients and objective sum -/

/-- C1: in the built model, the objective coefficient of `Assign[o][w]` is
`(item_count(o) / throughput_rate(w)) * cost_rate(w)`, and the minimized
objective is the sum of these coefficients times their variables over all
(order, worker) pairs. -/
theorem objective_coefficients_and_sum (orders : List Order) (workers : List Worker)
    (hod : (orders.map Order.order_id).Nodup)
    (hwd : (workers.map Worker.name).Nodup)
    (o : Order) (ho : o ∈ orders) (w : Worker) (hw : w ∈ workers) :
    (optimize_schedule_build orders workers).sense = "Minimize" ∧
    coeffOf (optimize_schedule_build orders workers).objective o.order_id w.name
      = o.num_items / w.speed * w.wage ∧
    ∀ x, evalTerms x (optimize_schedule_build orders workers).objective
      = (orders.map (fun o2 => (workers.map (fun w2 =>
          o2.num_items / w2.speed * w2.wage * x o2.order_id w2.name)).sum)).sum := by
  refine ⟨rfl, ?_, ?_⟩
  · exact coeffOf_buildObjective orders workers hod hwd o ho w hw
  · intro x
    exact evalTerms_objective orders workers x

/-- Witness for C1 at a concrete two-order catalog and the `WORKERS`
registry: the Senior coefficient of order 2 is `(20 / 65) * 28 = 112/13`. -/
theorem objective_coefficients_and_sum_witness :
    (([⟨1, 10⟩, ⟨2, 20⟩] : List Order).map Order.order_id).Nodup ∧
    (WORKERS.map Worker.name).Nodup ∧
    (⟨2, 20⟩ : Order) ∈ ([⟨1, 10⟩, ⟨2, 20⟩] : List Order) ∧
    (⟨"Senior", 65, 28, 16⟩ : Worker) ∈ WORKERS ∧
    ((optimize_schedule_build [⟨1, 10⟩, ⟨2, 20⟩] WORKERS).sense = "Minimize" ∧
     coeffOf (optimize_schedule_build [⟨1, 10⟩, ⟨2, 20⟩] WORKERS).objective 2 "Senior"
       = 20 / 65 * 28 ∧
     ∀ x, evalTerms x (optimize_schedule_build [⟨1, 10⟩, ⟨2, 20⟩] WORKERS).objective
       = (([⟨1, 10⟩, ⟨2, 20⟩] : List Order).map (fun o2 => (WORKERS.map (fun w2 =>
           o2.num_items / w2.speed * w2.wage * x o2.order_id w2.name)).sum)).sum) :=
  ⟨by decide, by decide, by decide, by decide,
   objective_coefficients_and_sum [⟨1, 10⟩, ⟨2, 20⟩] WORKERS (by decide) (by decide)
     ⟨2, 20⟩ (by decide) ⟨"Senior", 65, 28, 16⟩ (by decide)⟩

/-! ## C2 — single-ownership constraints -/

theorem binary_sum_nonneg (values : List ℚ) (h : ∀ v ∈ values, v = 0 ∨ v = 1) :
    0 ≤ values.sum := by
  induction values with
  | nil => simp
  | cons v rest ih =>
    have hrest := ih (fun u hu => h u (List.mem_cons_of_mem v hu))
    rcases h v (List.mem_cons_self v rest) with h0 | h1
    · simp [h0]; linarith
    · simp [h1]; linarith

theorem binary_sum_zero_iff (values : List ℚ) (h : ∀ v ∈ values, v = 0 ∨ v = 1) :
    values.sum = 0 ↔ values.count 1 = 0 := by
  induction values with
  | nil => simp
  | cons v rest ih =>
    have hrest : ∀ u ∈ rest, u = 0 ∨ u = 1 :=
      fun u hu => h u (List.mem_cons_of_mem v hu)
    have hnn := binary_sum_nonneg rest hrest
    rcases h v (List.mem_cons_self v rest) with h0 | h1
    · simp [h0, List.count_cons, ih hrest, show ¬((0 : ℚ) = 1) by norm_num]
    · subst h1
      rw [List.sum_cons, List.count_cons]
      constructor
      · intro hcon
        linarith
      · intro hcon
        simp at hcon

theorem binary_sum_one_iff (values : List ℚ) (h : ∀ v ∈ values, v = 0 ∨ v = 1) :
    values.sum = 1 ↔ values.count 1 = 1 := by
  induction values with
  | nil => simp
  | cons v rest ih =>
    have hrest : ∀ u ∈ rest, u = 0 ∨ u = 1 :=
      fun u hu => h u (List.mem_cons_of_mem v hu)
    rcases h v (List.mem_cons_self v rest) with h0 | h1
    · simp [h0, List.count_cons, ih hrest, show ¬((0 : ℚ) = 1) by norm_num]
    · subst h1
      rw [List.sum_cons, List.count_cons]
      simp only [beq_self_eq_true, if_true]
      constructor
      · intro hsum
        have hz : rest.sum = 0 := by linarith
        simp [(binary_sum_zero_iff rest hrest).mp hz]
      · intro hcount
        have hc : rest.count 1 = 0 := by omega
        have := (binary_sum_zero_iff rest hrest).mpr hc
        linarith

/-- C2: for every order `o` in the catalog, the built model contains the
equality constraint `Σ_w x[o][w] = 1`; under the binary variable domain it
means exactly one worker-type variable of `o` takes value 1 — split
assignment is forbidden. -/
theorem single_ownership_constraint (orders : List Order) (workers : List Worker)
    (o : Order) (ho : o ∈ orders) :
    ∃ c ∈ (optimize_schedule_build orders workers).constraints,
      c.rel = .eq ∧ c.rhs = 1 ∧
      (∀ x, evalTerms x c.terms = (workers.map (fun w => x o.order_id w.name)).sum) ∧
      (∀ x, binaryOn orders workers x →
        (c.sat x ↔ (workers.map (fun w => x o.order_id w.name)).count 1 = 1)) := by
  refine ⟨singleOwnershipConstr workers o, ?_, rfl, rfl, ?_, ?_⟩
  · exact List.mem_append_left _ (List.mem_map_of_mem (singleOwnershipConstr workers) ho)
  · exact eval_singleOwnership workers o
  · intro x hbin
    have hsat : (singleOwnershipConstr workers o).sat x ↔
        evalTerms x (singleOwnershipConstr workers o).terms = 1 := by
      simp [Constr.sat, singleOwnershipConstr, CRel.holds]
    rw [hsat, eval_singleOwnership workers o]
    apply binary_sum_one_iff
    intro v hv
    rcases List.mem_map.mp hv with ⟨w, hw, rfl⟩
    exact hbin o ho w hw

/-- Witness for C2 at a one-order catalog and the `WORKERS` registry. -/
theorem single_ownership_constraint_witness :
    (⟨1, 10⟩ : Order) ∈ ([⟨1, 10⟩] : List Order) ∧
    (∃ c ∈ (optimize_schedule_build [⟨1, 10⟩] WORKERS).constraints,
      c.rel = .eq ∧ c.rhs = 1 ∧
      (∀ x, evalTerms x c.terms = (WORKERS.map (fun w => x 1 w.name)).sum) ∧
      (∀ x, binaryOn [⟨1, 10⟩] WORKERS x →
        (c.sat x ↔ (WORKERS.map (fun w => x 1 w.name)).count 1 = 1))) :=
  ⟨by decide, single_ownership_constraint [⟨1, 10⟩] WORKERS ⟨1, 10⟩ (by decide)⟩

/-! ## C3 — capacity constraints and the 9999 sentinel -/

theorem sum_map_div (l : List α) (f : α → ℚ) (c : ℚ) :
    (l.map (fun a => f a / c)).sum = (l.map f).sum / c := by
  simp [div_eq_mul_inv, List.sum_map_mul_right]

/-- C3: for every worker type `w` the built model contains the constraint
`Σ_o (item_count(o)/throughput_rate(w)) * x[o][w] ≤ max_hours(w)`; and on the
concrete `WORKERS` registry the effectively-unbounded Junior sentinel is the
finite bound 9999, which (whenever the catalog's total item count is below
`25 * 9999 = 249975`, as for any realistic catalog of the pipeline) strictly
exceeds the theoretical maximum Junior workload `totalItems / 25`, so the
constraint can never bind: every box-domain valuation satisfies it
strictly. -/
theorem capacity_constraints_and_sentinel (orders : List Order)
    (workers : List Worker)
    (hitems : ∀ o ∈ orders, 0 ≤ o.num_items)
    (htot : totalItems orders < 249975) :
    (∀ w ∈ workers, ∃ c ∈ (optimize_schedule_build orders workers).constraints,
      c.rel = .le ∧ c.rhs = w.max_hours ∧
      ∀ x, evalTerms x c.terms
        = (orders.map (fun o => o.num_items / w.speed * x o.order_id w.name)).sum) ∧
    (∃ c ∈ (optimize_schedule_build orders WORKERS).constraints,
      c.cname = "Max_Capacity_Junior" ∧ c.rhs = 9999 ∧
      ∀ x, (∀ oid wn, 0 ≤ x oid wn ∧ x oid wn ≤ 1) →
        evalTerms x c.terms < 9999) := by
  constructor
  · intro w hw
    exact ⟨capacityConstr orders w,
      List.mem_append_right _ (List.mem_map_of_mem (capacityConstr orders) hw),
      rfl, rfl, fun x => eval_capacity orders w x⟩
  · refine ⟨capacityConstr orders ⟨"Junior", 25, 16, 9999⟩,
      List.mem_append_right _
        (List.mem_map_of_mem (capacityConstr orders) (by decide)),
      rfl, rfl, ?_⟩
    intro x hx
    rw [eval_capacity]
    have hsp : (⟨"Junior", 25, 16, 9999⟩ : Worker).speed = 25 := rfl
    have hnm : (⟨"Junior", 25, 16, 9999⟩ : Worker).name = "Junior" := rfl
    simp only [hsp, hnm]
    have h1 : (orders.map (fun o => o.num_items / 25 * x o.order_id "Junior")).sum
        ≤ (orders.map (fun o => o.num_items / 25)).sum := by
      apply List.sum_le_sum
      intro o ho
      exact mul_le_of_le_one_right
        (div_nonneg (hitems o ho) (by norm_num)) (hx o.order_id "Junior").2
    have h2 : (orders.map (fun o => o.num_items / 25)).sum
        = totalItems orders / 25 := by
      rw [totalItems]
      exact sum_map_div orders Order.num_items 25
    have h3 : totalItems orders / 25 < 9999 := by
      rw [div_lt_iff₀ (by norm_num : (0 : ℚ) < 25)]
      linarith
    linarith

/-- Witness for C3 at a concrete catalog. -/
theorem capacity_constraints_and_sentinel_witness :
    (∀ o ∈ ([⟨1, 10⟩, ⟨2, 20⟩] : List Order), (0 : ℚ) ≤ o.num_items) ∧
    totalItems [⟨1, 10⟩, ⟨2, 20⟩] < 249975 ∧
    ((∀ w ∈ WORKERS, ∃ c ∈ (optimize_schedule_build [⟨1, 10⟩, ⟨2, 20⟩] WORKERS).constraints,
      c.rel = .le ∧ c.rhs = w.max_hours ∧
      ∀ x, evalTerms x c.terms
        = (([⟨1, 10⟩, ⟨2, 20⟩] : List Order).map
            (fun o => o.num_items / w.speed * x o.order_id w.name)).sum) ∧
    (∃ c ∈ (optimize_schedule_build [⟨1, 10⟩, ⟨2, 20⟩] WORKERS).constraints,
      c.cname = "Max_Capacity_Junior" ∧ c.rhs = 9999 ∧
      ∀ x, (∀ oid wn, 0 ≤ x oid wn ∧ x oid wn ≤ 1) →
        evalTerms x c.terms < 9999)) :=
  ⟨by decide, by norm_num [totalItems],
   capacity_constraints_and_sentinel [⟨1, 10⟩, ⟨2, 20⟩] WORKERS
     (by decide) (by norm_num [totalItems])⟩

/-! ## C4, C10 — extractor behaviour -/

theorem processOrder_some (registry : List Worker) (workerNames : List String)
    (x : Nat → String → ℚ) (o : Order) (r : ResultRow)
    (h : processOrder registry workerNames x o = some r) :
    r.order_id = o.order_id ∧ r.assigned_worker ∈ workerNames ∧
    ∃ w ∈ registry, w.name = r.assigned_worker ∧ 1 / 2 < x o.order_id w.name ∧
      r.cost = o.num_items / w.speed * w.wage := by
  unfold processOrder at h
  cases hf : workerNames.find? (fun wn => decide ((1 : ℚ) / 2 < x o.order_id wn)) with
  | none => rw [hf] at h; cases h
  | some wn =>
    rw [hf] at h
    simp only at h
    cases hl : lookupWorker registry wn with
    | none => rw [hl] at h; cases h
    | some w =>
      rw [hl] at h
      simp only at h
      have hwmem : w ∈ registry := List.mem_of_find?_eq_some hl
      have hwname : w.name = wn := by
        have := List.find?_some hl
        simpa using this
      have hgt : 1 / 2 < x o.order_id wn := by
        have := List.find?_some hf
        simpa using this
      injection h with h
      subst h
      exact ⟨rfl, List.mem_of_find?_eq_some hf, w, hwmem, hwname,
        by rw [hwname]; exact hgt, rfl⟩

theorem save_results_forall₂ (registry : List Worker) (workerNames : List String)
    (x : Nat → String → ℚ) (P : Order → ResultRow → Prop)
    (hP : ∀ o r, processOrder registry workerNames x o = some r → P o r) :
    ∀ (orders : List Order) (rows : List ResultRow),
      save_results registry orders workerNames x = some rows →
      List.Forall₂ P orders rows := by
  intro orders
  induction orders with
  | nil =>
    intro rows h
    unfold save_results at h
    injection h with h
    subst h
    exact .nil
  | cons o rest ih =>
    intro rows h
    unfold save_results at h
    cases hp : processOrder registry workerNames x o with
    | none => rw [hp] at h; cases h
    | some r =>
      rw [hp] at h
      cases hs : save_results registry rest workerNames x with
      | none => rw [hs] at h; cases h
      | some rows2 =>
        rw [hs] at h
        injection h with h
        subst h
        exact .cons (hP o r hp) (ih rows2 hs)

/-- C4: whenever the extractor completes, each order's record names a
registry worker whose variable value exceeds `0.5` and carries the realized
cost `(item_count / throughput_rate) * cost_rate` of that worker. -/
theorem extractor_selection_and_cost (registry : List Worker)
    (workerNames : List String) (x : Nat → String → ℚ)
    (orders : List Order) (rows : List ResultRow)
    (h : save_results registry orders workerNames x = some rows) :
    List.Forall₂ (fun (o : Order) (r : ResultRow) =>
      r.order_id = o.order_id ∧ r.assigned_worker ∈ workerNames ∧
      ∃ w ∈ registry, w.name = r.assigned_worker ∧ 1 / 2 < x o.order_id w.name ∧
        r.cost = o.num_items / w.speed * w.wage) orders rows :=
  save_results_forall₂ registry workerNames x _
    (fun o r hp => processOrder_some registry workerNames x o r hp) orders rows h

/-- Witness for C4: a one-order catalog extracted under the valuation that
assigns the Robot; the recorded cost is `140 / 140 * 5 = 5`. -/
theorem extractor_selection_and_cost_witness :
    save_results WORKERS [⟨1, 140⟩] worker_names
      (fun _ wn => if wn = "Robot" then 1 else 0) = some [⟨1, "Robot", 5⟩] ∧
    List.Forall₂ (fun (o : Order) (r : ResultRow) =>
      r.order_id = o.order_id ∧ r.assigned_worker ∈ worker_names ∧
      ∃ w ∈ WORKERS, w.name = r.assigned_worker ∧
        1 / 2 < (fun (_ : Nat) (wn : String) => if wn = "Robot" then (1 : ℚ) else 0)
          o.order_id w.name ∧
        r.cost = o.num_items / w.speed * w.wage)
      [⟨1, 140⟩] [⟨1, "Robot", 5⟩] := by
  have h : save_results WORKERS [⟨1, 140⟩] worker_names
      (fun _ wn => if wn = "Robot" then 1 else 0) = some [⟨1, "Robot", 5⟩] := by
    norm_num [save_results, processOrder, lookupWorker, worker_names, WORKERS,
      List.find?, show ¬(("Junior" : String) = "Robot") from by decide,
      show ¬(("Senior" : String) = "Robot") from by decide,
      show (("Junior" : String) == "Robot") = false from by decide,
      show (("Senior" : String) == "Robot") = false from by decide,
      show (("Robot" : String) == "Robot") = true from by decide]
  exact ⟨h, extractor_selection_and_cost WORKERS worker_names _ [⟨1, 140⟩]
    [⟨1, "Robot", 5⟩] h⟩

theorem processOrder_jsr (x : Nat → String → ℚ) (o : Order) (r : ResultRow)
    (h : processOrder WORKERS worker_names x o = some r) :
    ((1 : ℚ) / 2 < x o.order_id "Junior" →
      r.assigned_worker = "Junior" ∧ r.cost = o.num_items / 25 * 16) ∧
    (x o.order_id "Junior" ≤ 1 / 2 → (1 : ℚ) / 2 < x o.order_id "Senior" →
      r.assigned_worker = "Senior" ∧ r.cost = o.num_items / 65 * 28) ∧
    (x o.order_id "Junior" ≤ 1 / 2 → x o.order_id "Senior" ≤ 1 / 2 →
      r.assigned_worker = "Robot" ∧ r.cost = o.num_items / 140 * 5) := by
  have hw : worker_names = ["Junior", "Senior", "Robot"] := rfl
  rw [processOrder, hw] at h
  by_cases hJ : (1 : ℚ) / 2 < x o.order_id "Junior"
  · rw [List.find?_cons_of_pos _ (by simpa using hJ)] at h
    simp only at h
    rw [show lookupWorker WORKERS "Junior"
        = some ⟨"Junior", 25, 16, 9999⟩ from by decide] at h
    simp only at h
    injection h with h
    subst h
    exact ⟨fun _ => ⟨rfl, rfl⟩,
      fun hle _ => absurd hJ (not_lt.mpr hle),
      fun hle _ => absurd hJ (not_lt.mpr hle)⟩
  · rw [List.find?_cons_of_neg _ (by simpa using hJ)] at h
    by_cases hS : (1 : ℚ) / 2 < x o.order_id "Senior"
    · rw [List.find?_cons_of_pos _ (by simpa using hS)] at h
      simp only at h
      rw [show lookupWorker WORKERS "Senior"
          = some ⟨"Senior", 65, 28, 16⟩ from by decide] at h
      simp only at h
      injection h with h
      subst h
      exact ⟨fun hJ' => absurd hJ' hJ,
        fun _ _ => ⟨rfl, rfl⟩,
        fun _ hle => absurd hS (not_lt.mpr hle)⟩
    · rw [List.find?_cons_of_neg _ (by simpa using hS)] at h
      by_cases hR : (1 : ℚ) / 2 < x o.order_id "Robot"
      · rw [List.find?_cons_of_pos _ (by simpa using hR)] at h
        simp only at h
        rw [show lookupWorker WORKERS "Robot"
            = some ⟨"Robot", 140, 5, 8⟩ from by decide] at h
        simp only at h
        injection h with h
        subst h
        exact ⟨fun hJ' => absurd hJ' hJ,
          fun _ hS' => absurd hS' hS,
          fun _ _ => ⟨rfl, rfl⟩⟩
      · rw [List.find?_cons_of_neg _ (by simpa using hR)] at h
        simp [List.find?] at h

/-- C10: the extractor scans worker types in the registry's fixed iteration
order Junior, Senior, Robot and assigns each order to the first whose
variable exceeds 0.5, ignoring all later worker types: the recorded
assignment and cost are determined by registry order. -/
theorem extractor_registry_order_priority (orders : List Order)
    (x : Nat → String → ℚ) (rows : List ResultRow)
    (h : save_results WORKERS orders worker_names x = some rows) :
    List.Forall₂ (fun (o : Order) (r : ResultRow) =>
      ((1 : ℚ) / 2 < x o.order_id "Junior" →
        r.assigned_worker = "Junior" ∧ r.cost = o.num_items / 25 * 16) ∧
      (x o.order_id "Junior" ≤ 1 / 2 → (1 : ℚ) / 2 < x o.order_id "Senior" →
        r.assigned_worker = "Senior" ∧ r.cost = o.num_items / 65 * 28) ∧
      (x o.order_id "Junior" ≤ 1 / 2 → x o.order_id "Senior" ≤ 1 / 2 →
        r.assigned_worker = "Robot" ∧ r.cost = o.num_items / 140 * 5)) orders rows :=
  save_results_forall₂ WORKERS worker_names x _
    (fun o r hp => processOrder_jsr x o r hp) orders rows h

/-- Witness for C10: both the Junior and the Robot variables of order 1
exceed the threshold, and the extractor records the Junior assignment and the
Junior cost, ignoring the Robot's value. -/
theorem extractor_registry_order_priority_witness :
    (1 : ℚ) / 2
      < (fun (_ : Nat) (wn : String) => if wn = "Senior" then (0 : ℚ) else 1) 1 "Robot" ∧
    save_results WORKERS [⟨1, 25⟩] worker_names
      (fun _ wn => if wn = "Senior" then 0 else 1) = some [⟨1, "Junior", 16⟩] ∧
    List.Forall₂ (fun (o : Order) (r : ResultRow) =>
      ((1 : ℚ) / 2 < (fun (_ : Nat) (wn : String) =>
          if wn = "Senior" then (0 : ℚ) else 1) o.order_id "Junior" →
        r.assigned_worker = "Junior" ∧ r.cost = o.num_items / 25 * 16) ∧
      ((fun (_ : Nat) (wn : String) =>
          if wn = "Senior" then (0 : ℚ) else 1) o.order_id "Junior" ≤ 1 / 2 →
        (1 : ℚ) / 2 < (fun (_ : Nat) (wn : String) =>
          if wn = "Senior" then (0 : ℚ) else 1) o.order_id "Senior" →
        r.assigned_worker = "Senior" ∧ r.cost = o.num_items / 65 * 28) ∧
      ((fun (_ : Nat) (wn : String) =>
          if wn = "Senior" then (0 : ℚ) else 1) o.order_id "Junior" ≤ 1 / 2 →
        (fun (_ : Nat) (wn : String) =>
          if wn = "Senior" then (0 : ℚ) else 1) o.order_id "Senior" ≤ 1 / 2 →
        r.assigned_worker = "Robot" ∧ r.cost = o.num_items / 140 * 5))
      [⟨1, 25⟩] [⟨1, "Junior", 16⟩] := by
  have h : save_results WORKERS [⟨1, 25⟩] worker_names
      (fun _ wn => if wn = "Senior" then 0 else 1) = some [⟨1, "Junior", 16⟩] := by
    norm_num [save_results, processOrder, lookupWorker, worker_names, WORKERS,
      List.find?, show ¬(("Junior" : String) = "Senior") from by decide,
      show ¬(("Robot" : String) = "Senior") from by decide,
      show (("Junior" : String) == "Junior") = true from by decide]
  exact ⟨by norm_num [show ¬(("Robot" : String) = "Senior") from by decide], h,
    extractor_registry_order_priority [⟨1, 25⟩] _ [⟨1, "Junior", 16⟩] h⟩

/-! ## C5 — absence of post-solve consistency checks -/

/-- C5 counterexample: order 1 has TWO selected workers (both the Junior and
the Senior variables exceed 0.5, so the "exactly one selected worker" check
fails), yet `save_results` completes normally and returns records — no
`InvariantViolationError` (or any error) is raised; indeed no such exception
class exists anywhere in the repository. -/
theorem extractor_no_invariant_error_on_double_selection :
    ((1 : ℚ) / 2
      < (fun (_ : Nat) (wn : String) =>
          if wn = "Robot" then (0 : ℚ) else 1) 1 "Junior" ∧
     (1 : ℚ) / 2
      < (fun (_ : Nat) (wn : String) =>
          if wn = "Robot" then (0 : ℚ) else 1) 1 "Senior") ∧
    save_results WORKERS [⟨1, 25⟩] worker_names
      (fun _ wn => if wn = "Robot" then 0 else 1) = some [⟨1, "Junior", 16⟩] := by
  constructor
  · constructor <;>
      norm_num [show ¬(("Junior" : String) = "Robot") from by decide,
        show ¬(("Senior" : String) = "Robot") from by decide]
  · norm_num [save_results, processOrder, lookupWorker, worker_names, WORKERS,
      List.find?, show ¬(("Junior" : String) = "Robot") from by decide,
      show (("Junior" : String) == "Junior") = true from by decide]

theorem processOrder_isSome (registry : List Worker) (workerNames : List String)
    (x : Nat → String → ℚ) (o : Order)
    (hnames : ∀ wn ∈ workerNames, (lookupWorker registry wn).isSome) :
    (processOrder registry workerNames x o).isSome ↔
      ∃ wn ∈ workerNames, (1 : ℚ) / 2 < x o.order_id wn := by
  constructor
  · intro hs
    obtain ⟨r, hr⟩ := Option.isSome_iff_exists.mp hs
    obtain ⟨-, hmem, w, -, hname, hgt, -⟩ :=
      processOrder_some registry workerNames x o r hr
    exact ⟨r.assigned_worker, hmem, hname ▸ hgt⟩
  · rintro ⟨wn, hmem, hgt⟩
    have hfs : (workerNames.find?
        (fun wn => decide ((1 : ℚ) / 2 < x o.order_id wn))).isSome := by
      rw [List.find?_isSome]
      exact ⟨wn, hmem, by simpa using hgt⟩
    obtain ⟨wn2, hf⟩ := Option.isSome_iff_exists.mp hfs
    obtain ⟨w, hl⟩ := Option.isSome_iff_exists.mp
      (hnames wn2 (List.mem_of_find?_eq_some hf))
    have hpo : processOrder registry workerNames x o
        = some { order_id := o.order_id, assigned_worker := wn2,
                 cost := o.num_items / w.speed * w.wage } := by
      unfold processOrder
      rw [hf]
      show (match lookupWorker registry wn2 with
        | none => none
        | some w2 =>
          (some { order_id := o.order_id, assigned_worker := wn2,
                  cost := o.num_items / w2.speed * w2.wage } : Option ResultRow)) = _
      rw [hl]
    rw [hpo]
    rfl

theorem save_results_isSome (registry : List Worker) (workerNames : List String)
    (x : Nat → String → ℚ) :
    ∀ orders : List Order,
      (save_results registry orders workerNames x).isSome ↔
        ∀ o ∈ orders, (processOrder registry workerNames x o).isSome := by
  intro orders
  induction orders with
  | nil => simp [save_results]
  | cons o rest ih =>
    unfold save_results
    cases hp : processOrder registry workerNames x o with
    | none =>
      simp only [Option.isSome_none]
      constructor
      · intro hcon; cases hcon
      · intro hall
        have := hall o (List.mem_cons_self o rest)
        rw [hp] at this
        cases this
    | some r =>
      cases hs : save_results registry rest workerNames x with
      | none =>
        simp only [Option.isSome_none]
        constructor
        · intro hcon; cases hcon
        · intro hall
          have : ∀ o2 ∈ rest, (processOrder registry workerNames x o2).isSome :=
            fun o2 ho2 => hall o2 (List.mem_cons_of_mem o ho2)
          have := (ih).mpr this
          rw [hs] at this
          cases this
      | some rows2 =>
        simp only [Option.isSome_some, true_iff]
        intro o2 ho2
        rcases List.mem_cons.mp ho2 with h2 | h2
        · rw [h2, hp]; rfl
        · have : ∀ o3 ∈ rest, (processOrder registry workerNames x o3).isSome := by
            have := (ih).mp (by rw [hs]; rfl)
            exact this
          exact this o2 h2

/-- C5 amended: the extractor performs no post-solve consistency check at
all.  Provided every worker name resolves in the registry (as in the program,
where the names are the registry's own keys), extraction succeeds exactly
when every order has at least one variable above the 0.5 threshold — multiple
selected workers, capacity overruns and objective mismatches are silently
accepted, and the only failure mode (no selected worker) is an uncaught
`KeyError`, not an `InvariantViolationError`. -/
theorem extractor_no_validation (registry : List Worker)
    (workerNames : List String) (x : Nat → String → ℚ) (orders : List Order)
    (hnames : ∀ wn ∈ workerNames, (lookupWorker registry wn).isSome) :
    (save_results registry orders workerNames x).isSome ↔
      ∀ o ∈ orders, ∃ wn ∈ workerNames, (1 : ℚ) / 2 < x o.order_id wn := by
  rw [save_results_isSome registry workerNames x orders]
  constructor
  · intro hall o ho
    exact (processOrder_isSome registry workerNames x o hnames).mp (hall o ho)
  · intro hall o ho
    exact (processOrder_isSome registry workerNames x o hnames).mpr (hall o ho)

/-- Witness for the amended C5: a two-order catalog where only the second
order has a variable above threshold — extraction fails (the `KeyError`),
matching the characterization. -/
theorem extractor_no_validation_witness :
    (∀ wn ∈ worker_names, (lookupWorker WORKERS wn).isSome) ∧
    ((save_results WORKERS [⟨1, 10⟩, ⟨2, 20⟩] worker_names
        (fun oid wn => if oid = 2 ∧ wn = "Robot" then 1 else 0)).isSome ↔
      ∀ o ∈ ([⟨1, 10⟩, ⟨2, 20⟩] : List Order), ∃ wn ∈ worker_names,
        (1 : ℚ) / 2 < (fun (oid : Nat) (wn : String) =>
          if oid = 2 ∧ wn = "Robot" then (1 : ℚ) else 0) o.order_id wn) :=
  ⟨by decide,
   extractor_no_validation WORKERS worker_names _ [⟨1, 10⟩, ⟨2, 20⟩] (by decide)⟩

/-! ## C6 — what the model builder does and does not validate -/

/-- C6 counterexample: an order with non-positive item count (0) on the
non-empty `WORKERS` registry builds successfully, and so does a catalog on an
EMPTY registry: no failure of any kind occurs on two of the claim's three
trigger conditions — and no `ModelConstructionError` class exists anywhere
in the repository to be raised. -/
theorem build_accepts_invalid_catalog :
    (∃ o ∈ ([⟨7, 0⟩] : List Order), ¬(0 : ℚ) < o.num_items) ∧
    (optimize_schedule_run [⟨7, 0⟩] WORKERS).map
      (fun m => (m.constraints.length, m.objective.length)) = some (4, 3) ∧
    (optimize_schedule_run [⟨7, 5⟩] ([] : List Worker)).map
      (fun m => (m.constraints.length, m.objective.length)) = some (1, 0) := by
  refine ⟨?_, ?_, ?_⟩ <;> decide

theorem build_shape (orders : List Order) (workers : List Worker) :
    (optimize_schedule_build orders workers).constraints.length
      = orders.length + workers.length ∧
    (optimize_schedule_build orders workers).objective.length
      = orders.length * workers.length := by
  constructor
  · simp [optimize_schedule_build]
  · simp only [optimize_schedule_build, buildObjective, List.length_flatten,
      List.map_map]
    have : (List.length ∘ objTerms workers) = fun _ : Order => workers.length := by
      funext o
      simp [objTerms]
    rw [this, List.map_const', List.sum_replicate, smul_eq_mul]

/-- C6 amended: the builder validates no order data — non-positive item
counts and an empty registry build without error, and no
`ModelConstructionError` exists in the repository — but duplicate order
identifiers do abort the build before any solver invocation, via PuLP's
overlapping-constraint-name `PulpError` (`Single_Ownership_Order{oid}`
repeats): every completed build has pairwise-distinct order identifiers and
carries the full  |orders| + |workers| constraints and
|orders| * |workers| objective terms. -/
theorem build_pulp_name_check (orders : List Order) (workers : List Worker)
    (m : LPModel) (hm : optimize_schedule_run orders workers = some m) :
    (orders.map Order.order_id).Nodup ∧
    m.constraints.length = orders.length + workers.length ∧
    m.objective.length = orders.length * workers.length := by
  unfold optimize_schedule_run at hm
  by_cases hc : (constraintNames orders workers).Nodup
  · rw [if_pos hc] at hm
    injection hm with hm
    subst hm
    refine ⟨?_, (build_shape orders workers).1, (build_shape orders workers).2⟩
    have h1 : constraintNames orders workers
        = orders.map (fun o => "Single_Ownership_Order" ++ toString o.order_id)
          ++ workers.map (fun w => "Max_Capacity_" ++ w.name) := by
      simp [constraintNames, optimize_schedule_build, List.map_append,
        List.map_map, singleOwnershipConstr, capacityConstr, Function.comp_def]
    rw [h1] at hc
    have h2 := hc.of_append_left
    have h3 : orders.map (fun o => "Single_Ownership_Order" ++ toString o.order_id)
        = (orders.map Order.order_id).map
            (fun n => "Single_Ownership_Order" ++ toString n) := by
      rw [List.map_map]
      rfl
    rw [h3] at h2
    exact h2.of_map
  · rw [if_neg hc] at hm
    cases hm

/-- Witness for the amended C6 at a concrete completed build. -/
theorem build_pulp_name_check_witness :
    optimize_schedule_run [⟨7, 5⟩] ([] : List Worker)
        = some (optimize_schedule_build [⟨7, 5⟩] []) ∧
    ((([⟨7, 5⟩] : List Order).map Order.order_id).Nodup ∧
     (optimize_schedule_build [⟨7, 5⟩] ([] : List Worker)).constraints.length = 1 + 0 ∧
     (optimize_schedule_build [⟨7, 5⟩] ([] : List Worker)).objective.length = 1 * 0) := by
  have hm : optimize_schedule_run [⟨7, 5⟩] ([] : List Worker)
      = some (optimize_schedule_build [⟨7, 5⟩] []) := by
    unfold optimize_schedule_run
    rw [if_pos (by decide)]
  exact ⟨hm, build_pulp_name_check [⟨7, 5⟩] [] _ hm⟩

/-! ## C7 — status guard before extraction -/

/-- C7: the `__main__` block of `optimize_logistics.py` extracts only on
status `"Optimal"` (returning no records on `"Infeasible"`), but the pipeline
driver `src/main.py` never inspects the status: with the identical inputs and
the non-Optimal status `"Infeasible"` it still runs the extractor and
produces assignment records, contradicting the required propagation of
non-Optimal statuses. -/
theorem main_py_extracts_on_non_optimal_status :
    "Infeasible" ≠ "Optimal" ∧
    main_guard_postsolve WORKERS [⟨1, 140⟩] worker_names
      (fun _ wn => if wn = "Robot" then 1 else 0) "Infeasible" = none ∧
    main_py_postsolve WORKERS [⟨1, 140⟩] worker_names
      (fun _ wn => if wn = "Robot" then 1 else 0) "Infeasible"
      = some [⟨1, "Robot", 5⟩] := by
  refine ⟨by decide, by decide, ?_⟩
  rw [main_py_postsolve]
  norm_num [save_results, processOrder, lookupWorker, worker_names, WORKERS,
    List.find?, show ¬(("Junior" : String) = "Robot") from by decide,
    show ¬(("Senior" : String) = "Robot") from by decide,
    show (("Junior" : String) == "Robot") = false from by decide,
    show (("Senior" : String) == "Robot") = false from by decide,
    show (("Robot" : String) == "Robot") = true from by decide]

/-! ## C8 — infeasibility under capacity shortfall -/

theorem div_le_div_same_num (a b S : ℚ) (ha : 0 ≤ a) (hb : 0 < b) (hbS : b ≤ S) :
    a / S ≤ a / b := by
  rw [div_eq_mul_one_div a S, div_eq_mul_one_div a b]
  exact mul_le_mul_of_nonneg_left (one_div_le_one_div_of_le hb hbS) ha

/-- C8: when the catalog's total item-hours (measured at the best throughput
bound `S` of any worker) strictly exceed the summed `max_hours` of all worker
types, the built model admits no feasible assignment at all — the exact
solve therefore terminates with the valid status Infeasible rather than
crashing. -/
theorem infeasible_when_capacity_short (orders : List Order)
    (workers : List Worker) (S : ℚ)
    (hsp : ∀ w ∈ workers, 0 < w.speed ∧ w.speed ≤ S)
    (hitems : ∀ o ∈ orders, 0 ≤ o.num_items)
    (hcap : (workers.map Worker.max_hours).sum < totalItems orders / S) :
    ¬∃ x, Feasible orders workers x := by
  rintro ⟨x, hbin, hsat⟩
  have hxnn : ∀ o ∈ orders, ∀ w ∈ workers, 0 ≤ x o.order_id w.name := by
    intro o ho w hw
    rcases hbin o ho w hw with h | h <;> rw [h]
    norm_num
  have hcapw : ∀ w ∈ workers,
      (orders.map (fun o => o.num_items / w.speed * x o.order_id w.name)).sum
        ≤ w.max_hours := by
    intro w hw
    have hc := hsat (capacityConstr orders w)
      (List.mem_append_right _ (List.mem_map_of_mem (capacityConstr orders) hw))
    have h2 : evalTerms x (capacityConstr orders w).terms
        ≤ (capacityConstr orders w).rhs := hc
    rw [eval_capacity] at h2
    exact h2
  have hown : ∀ o ∈ orders, (workers.map (fun w => x o.order_id w.name)).sum = 1 := by
    intro o ho
    have hc := hsat (singleOwnershipConstr workers o)
      (List.mem_append_left _ (List.mem_map_of_mem (singleOwnershipConstr workers) ho))
    have h2 : evalTerms x (singleOwnershipConstr workers o).terms
        = (singleOwnershipConstr workers o).rhs := hc
    rw [eval_singleOwnership] at h2
    exact h2
  have hstep : (workers.map (fun w =>
      (orders.map (fun o => o.num_items / S * x o.order_id w.name)).sum)).sum
        ≤ (workers.map Worker.max_hours).sum := by
    apply List.sum_le_sum
    intro w hw
    refine le_trans (List.sum_le_sum ?_) (hcapw w hw)
    intro o ho
    exact mul_le_mul_of_nonneg_right
      (div_le_div_same_num o.num_items w.speed S (hitems o ho)
        (hsp w hw).1 (hsp w hw).2)
      (hxnn o ho w hw)
  have hswap := sum_map_comm workers orders
    (fun w o => o.num_items / S * x o.order_id w.name)
  have htotal : (orders.map (fun o =>
      (workers.map (fun w => o.num_items / S * x o.order_id w.name)).sum)).sum
        = totalItems orders / S := by
    have hinner : ∀ o ∈ orders,
        (workers.map (fun w => o.num_items / S * x o.order_id w.name)).sum
          = o.num_items / S := by
      intro o ho
      rw [List.sum_map_mul_left, hown o ho, mul_one]
    rw [List.map_congr_left hinner, totalItems]
    exact sum_map_div orders Order.num_items S
  rw [hswap, htotal] at hstep
  linarith

/-- Witness for C8: one order of 10 items against a single worker of speed 1
and one available hour — 10 required hours exceed 1 available hour, so the
model is infeasible. -/
theorem infeasible_when_capacity_short_witness :
    ((∀ w ∈ ([⟨"A", 1, 1, 1⟩] : List Worker), 0 < w.speed ∧ w.speed ≤ 1) ∧
     (∀ o ∈ ([⟨1, 10⟩] : List Order), (0 : ℚ) ≤ o.num_items) ∧
     (([⟨"A", 1, 1, 1⟩] : List Worker).map Worker.max_hours).sum
       < totalItems [⟨1, 10⟩] / 1) ∧
    ¬∃ x, Feasible [⟨1, 10⟩] [⟨"A", 1, 1, 1⟩] x :=
  ⟨⟨by norm_num, by norm_num, by norm_num [totalItems]⟩,
   infeasible_when_capacity_short [⟨1, 10⟩] [⟨"A", 1, 1, 1⟩] 1
     (by norm_num) (by norm_num) (by norm_num [totalItems])⟩

/-! ## C9 — optimal cost is antitone in capacity -/

/-- Pointwise registry comparison: same worker types (names, throughputs and
cost rates) with the second registry granting at least as many `max_hours`
to each type. -/
def WorkerLe (a b : Worker) : Prop :=
  a.name = b.name ∧ a.speed = b.speed ∧ a.wage = b.wage ∧
    a.max_hours ≤ b.max_hours

theorem forall₂_mem_right {α β : Type} {R : α → β → Prop} {l₁ : List α}
    {l₂ : List β} (h : List.Forall₂ R l₁ l₂) :
    ∀ b ∈ l₂, ∃ a ∈ l₁, R a b := by
  induction h with
  | nil => intro b hb; cases hb
  | cons hab htail ih =>
    intro b hb
    rcases List.mem_cons.mp hb with rfl | hb
    · exact ⟨_, List.mem_cons_self _ _, hab⟩
    · obtain ⟨a, ha, hr⟩ := ih b hb
      exact ⟨a, List.mem_cons_of_mem _ ha, hr⟩

theorem forall₂_names_eq {ws ws' : List Worker}
    (h : List.Forall₂ WorkerLe ws ws') :
    ws.map Worker.name = ws'.map Worker.name := by
  induction h with
  | nil => rfl
  | cons hab _ ih => simp [hab.1, ih]

theorem forall₂_ownership_eq {ws ws' : List Worker}
    (h : List.Forall₂ WorkerLe ws ws') (o : Order) :
    singleOwnershipConstr ws o = singleOwnershipConstr ws' o := by
  unfold singleOwnershipConstr
  have hterms : ws.map (fun w =>
      ({ coeff := 1, oid := o.order_id, wname := w.name } : Term))
      = ws'.map (fun w =>
      ({ coeff := 1, oid := o.order_id, wname := w.name } : Term)) := by
    induction h with
    | nil => rfl
    | cons hab _ ih => simp [hab.1, ih]
  rw [hterms]

theorem forall₂_objTerms_eq {ws ws' : List Worker}
    (h : List.Forall₂ WorkerLe ws ws') (o : Order) :
    objTerms ws o = objTerms ws' o := by
  induction h with
  | nil => rfl
  | cons hab _ ih =>
    obtain ⟨hn, hs, hw, -⟩ := hab
    simp only [objTerms, List.map_cons] at ih ⊢
    rw [hn, hs, hw, ih]

theorem objValue_eq_of_forall₂ (orders : List Order) {ws ws' : List Worker}
    (h : List.Forall₂ WorkerLe ws ws') (x : Nat → String → ℚ) :
    objValue orders ws' x = objValue orders ws x := by
  unfold objValue buildObjective
  rw [List.map_congr_left (fun o _ => (forall₂_objTerms_eq h o).symm)]

theorem feasible_of_capacity_le (orders : List Order) {ws ws' : List Worker}
    (h : List.Forall₂ WorkerLe ws ws') (x : Nat → String → ℚ)
    (hf : Feasible orders ws x) : Feasible orders ws' x := by
  obtain ⟨hbin, hsat⟩ := hf
  constructor
  · intro o ho w' hw'
    have hmem : w'.name ∈ ws'.map Worker.name := List.mem_map_of_mem Worker.name hw'
    rw [← forall₂_names_eq h] at hmem
    obtain ⟨w, hw, hname⟩ := List.mem_map.mp hmem
    rw [← hname]
    exact hbin o ho w hw
  · intro c hc
    rcases List.mem_append.mp hc with hcl | hcl
    · obtain ⟨o, ho, rfl⟩ := List.mem_map.mp hcl
      rw [← forall₂_ownership_eq h o]
      exact hsat _ (List.mem_append_left _
        (List.mem_map_of_mem (singleOwnershipConstr ws) ho))
    · obtain ⟨w', hw', rfl⟩ := List.mem_map.mp hcl
      obtain ⟨w, hw, hn, hs, hwage, hm⟩ := forall₂_mem_right h w' hw'
      have hc2 := hsat (capacityConstr orders w)
        (List.mem_append_right _ (List.mem_map_of_mem (capacityConstr orders) hw))
      have h1 : evalTerms x (capacityConstr orders w).terms ≤ w.max_hours := hc2
      show evalTerms x (capacityConstr orders w').terms ≤ w'.max_hours
      rw [eval_capacity] at h1 ⊢
      rw [← hn, ← hs]
      exact le_trans h1 hm

/-- C9: the optimal total cost of the built model is antitone in capacity —
whenever registry `ws'` grants each worker type at least the `max_hours` of
`ws` (all other data equal), the optimal objective value under `ws'` is at
most the optimal objective value under `ws`.  Read left to right this says
increasing any worker's `max_hours` never increases the optimal cost;
read right to left, decreasing it never decreases the optimal cost. -/
theorem optimal_cost_antitone_in_capacity (orders : List Order)
    (ws ws' : List Worker) (hrel : List.Forall₂ WorkerLe ws ws')
    (x1 x2 : Nat → String → ℚ)
    (h1 : IsOptimal orders ws x1) (h2 : IsOptimal orders ws' x2) :
    objValue orders ws' x2 ≤ objValue orders ws x1 := by
  have hfeas : Feasible orders ws' x1 :=
    feasible_of_capacity_le orders hrel x1 h1.1
  have hle := h2.2 x1 hfeas
  rw [objValue_eq_of_forall₂ orders hrel x1] at hle
  exact hle

theorem c9_registry_rel :
    List.Forall₂ WorkerLe [⟨"A", 1, 1, 1⟩] [⟨"A", 1, 1, 2⟩] :=
  .cons ⟨rfl, rfl, rfl, by norm_num⟩ .nil

theorem c9_opt_small : IsOptimal [⟨1, 1⟩] [⟨"A", 1, 1, 1⟩] (fun _ _ => 1) := by
  constructor
  · constructor
    · intro o ho w hw
      right; rfl
    · intro c hc
      simp only [optimize_schedule_build, List.map_cons, List.map_nil,
        List.cons_append, List.nil_append] at hc
      rcases List.mem_cons.mp hc with rfl | hc
      · show evalTerms (fun _ _ => 1)
          (singleOwnershipConstr [⟨"A", 1, 1, 1⟩] ⟨1, 1⟩).terms = _
        norm_num [evalTerms, singleOwnershipConstr]
      rcases List.mem_cons.mp hc with rfl | hc
      · show evalTerms (fun _ _ => 1)
          (capacityConstr [⟨1, 1⟩] ⟨"A", 1, 1, 1⟩).terms ≤ _
        norm_num [evalTerms, capacityConstr]
      · cases hc
  · intro y hy
    obtain ⟨hybin, hysat⟩ := hy
    have hc := hysat (singleOwnershipConstr [⟨"A", 1, 1, 1⟩] ⟨1, 1⟩)
      (by simp [optimize_schedule_build])
    have h1 : evalTerms y
        (singleOwnershipConstr [⟨"A", 1, 1, 1⟩] ⟨1, 1⟩).terms = 1 := hc
    rw [eval_singleOwnership] at h1
    simp at h1
    norm_num [objValue, evalTerms_objective, h1]

theorem c9_opt_large : IsOptimal [⟨1, 1⟩] [⟨"A", 1, 1, 2⟩] (fun _ _ => 1) := by
  constructor
  · constructor
    · intro o ho w hw
      right; rfl
    · intro c hc
      simp only [optimize_schedule_build, List.map_cons, List.map_nil,
        List.cons_append, List.nil_append] at hc
      rcases List.mem_cons.mp hc with rfl | hc
      · show evalTerms (fun _ _ => 1)
          (singleOwnershipConstr [⟨"A", 1, 1, 2⟩] ⟨1, 1⟩).terms = _
        norm_num [evalTerms, singleOwnershipConstr]
      rcases List.mem_cons.mp hc with rfl | hc
      · show evalTerms (fun _ _ => 1)
          (capacityConstr [⟨1, 1⟩] ⟨"A", 1, 1, 2⟩).terms ≤ _
        norm_num [evalTerms, capacityConstr]
      · cases hc
  · intro y hy
    obtain ⟨hybin, hysat⟩ := hy
    have hc := hysat (singleOwnershipConstr [⟨"A", 1, 1, 2⟩] ⟨1, 1⟩)
      (by simp [optimize_schedule_build])
    have h1 : evalTerms y
        (singleOwnershipConstr [⟨"A", 1, 1, 2⟩] ⟨1, 1⟩).terms = 1 := hc
    rw [eval_singleOwnership] at h1
    simp at h1
    norm_num [objValue, evalTerms_objective, h1]

/-- Witness for C9: registries differing only in the single worker's
`max_hours` (1 vs 2), with the all-ones assignment optimal for both. -/
theorem optimal_cost_antitone_in_capacity_witness :
    (List.Forall₂ WorkerLe [⟨"A", 1, 1, 1⟩] [⟨"A", 1, 1, 2⟩] ∧
     IsOptimal [⟨1, 1⟩] [⟨"A", 1, 1, 1⟩] (fun _ _ => 1) ∧
     IsOptimal [⟨1, 1⟩] [⟨"A", 1, 1, 2⟩] (fun _ _ => 1)) ∧
    objValue [⟨1, 1⟩] [⟨"A", 1, 1, 2⟩] (fun _ _ => 1)
      ≤ objValue [⟨1, 1⟩] [⟨"A", 1, 1, 1⟩] (fun _ _ => 1) :=
  ⟨⟨c9_registry_rel, c9_opt_small, c9_opt_large⟩,
   optimal_cost_antitone_in_capacity [⟨1, 1⟩] _ _ c9_registry_rel _ _
     c9_opt_small c9_opt_large⟩
